import Mathlib

/-!
Shallow embedding of the chunk-store repository (Go) in Lean 4.

Modelling conventions, used consistently below:

* Byte sequences (`[]byte`) are `List Nat`; every byte produced by the real
  program is `< 256`, and the lemmas that need that bound carry it explicitly.
* The external primitives of the Go standard library are parameters:
  - `sha : Bytes → Bytes` stands for `crypto/sha256.Sum256` (a 32-byte digest);
  - a `GCM` structure stands for `crypto/cipher`'s AES-256-GCM instance, with
    `Seal key nonce plaintext` and `Open key nonce ciphertext`;
  - `nonces : Nat → Bytes` is the stream of random nonces, one per chunk index
    (the Go code draws a fresh random nonce per `Encrypt` call).
* The local filesystem is a chronological list of writes
  `List (String × Bytes)`; `fsGet` returns the latest write to a name, which
  models `os.WriteFile` overwrite semantics.  The manifest file holds a
  structured value (`Manifest`): Go's `encoding/json` marshal/unmarshal of the
  `Manifest` struct is modelled as the identity codec.
* `int` counters that the program only ever assigns from non-negative sources
  (`index`, `ReplicationCount` of a strategy) are `Nat`; fields that the claims
  compare against zero or that JSON can populate freely (`ChunkSize`, `Size`,
  `TotalSize`, `ChunkCount`, config's `ReplicationCount`) are `Int`.
-/

namespace ChunkStore

abbrev Bytes := List Nat

/-! ### Hex rendering: `fmt.Sprintf("%x", bytes)` -/

/-- Lower-case hex digit, as produced by Go's `%x` verb. -/
def hexChar (n : Nat) : Char :=
  match n with
  | 0 => '0' | 1 => '1' | 2 => '2' | 3 => '3'
  | 4 => '4' | 5 => '5' | 6 => '6' | 7 => '7'
  | 8 => '8' | 9 => '9' | 10 => 'a' | 11 => 'b'
  | 12 => 'c' | 13 => 'd' | 14 => 'e' | _ => 'f'

/-- Two hex digits of one byte. -/
def byteHex (b : Nat) : List Char := [hexChar (b / 16), hexChar (b % 16)]

/-- `fmt.Sprintf("%x", bs)`: each byte as two lower-case hex digits. -/
def hexString (bs : Bytes) : String := String.mk ((bs.map byteHex).flatten)

/-! ### Cipher (internal/encryption/encryption.go) -/

/-- External AES-256-GCM primitive (`crypto/cipher.NewGCM` over AES-256). -/
structure GCM where
  nonceSize : Nat
  Seal : Bytes → Bytes → Bytes → Bytes
  Open : Bytes → Bytes → Bytes → Option Bytes

/-- `encryption.EncryptionConfig`. -/
structure EncryptionConfig where
  Enabled : Bool
  Key : Bytes
deriving DecidableEq

/-- `encryption.CreateEncryptionConfig`: SHA-256 of the password as the key. -/
def CreateEncryptionConfig (sha : Bytes → Bytes) (password : Bytes) (enabled : Bool) :
    EncryptionConfig :=
  if enabled then { Enabled := true, Key := sha password }
  else { Enabled := false, Key := [] }

/-- `EncryptionConfig.Encrypt`: identity when disabled, else the random nonce
prepended to `gcm.Seal(nonce, nonce, plaintext, nil)`. -/
def EncryptionConfig.Encrypt (g : GCM) (ec : EncryptionConfig) (nonce plaintext : Bytes) :
    Bytes :=
  if ec.Enabled then nonce ++ g.Seal ec.Key nonce plaintext else plaintext

/-- `EncryptionConfig.Decrypt`: identity when disabled; otherwise reject inputs
shorter than one nonce, split off the nonce, and `gcm.Open` the rest. -/
def EncryptionConfig.Decrypt (g : GCM) (ec : EncryptionConfig) (ciphertext : Bytes) :
    Except String Bytes :=
  if ec.Enabled then
    if ciphertext.length < g.nonceSize then .error "ciphertext too short"
    else
      match g.Open ec.Key (ciphertext.take g.nonceSize) (ciphertext.drop g.nonceSize) with
      | some plaintext => .ok plaintext
      | none => .error "failed to decrypt"
  else .ok ciphertext

/-! ### Manifest model (internal/manifest/manifest.go) -/

/-- `manifest.ChunkInfo`.  `CloudIDs` is a Go `map[string]string` that may be
`nil`, hence the `Option`; lookups are by first matching key. -/
structure ChunkInfo where
  ID : String
  Hash : String
  Index : Nat
  Encrypted : Bool
  CloudPaths : List String
  Providers : List String
  Size : Int
  UploadTime : String
  CloudIDs : Option (List (String × String))
deriving DecidableEq

/-- `manifest.Manifest`. -/
structure Manifest where
  OriginalName : String
  Chunks : List ChunkInfo
  Encrypted : Bool
  CreatedTime : String
  TotalSize : Int
  ChunkCount : Int
  DistributionMode : String
deriving DecidableEq

/-- `manifest.WriteManifestWithMode`: builds the manifest that is marshalled to
disk.  `ChunkCount` and `TotalSize` are recomputed from `chunks`; `CreatedTime`
is stamped with the current clock reading `now` (`time.Now().Format`). -/
def WriteManifestWithMode (chunks : List ChunkInfo) (original : String)
    (encrypted : Bool) (distributionMode : String) (now : String) : Manifest :=
  { OriginalName := original
    Chunks := chunks
    Encrypted := encrypted
    CreatedTime := now
    ChunkCount := (chunks.length : Int)
    TotalSize := (chunks.map (·.Size)).sum
    DistributionMode := distributionMode }

/-- `manifest.WriteManifest`: mode `"local"`. -/
def WriteManifest (chunks : List ChunkInfo) (original : String) (encrypted : Bool)
    (now : String) : Manifest :=
  WriteManifestWithMode chunks original encrypted "local" now

/-- `manifest.ReadManifest`: reads the manifest file back (the JSON codec is
modelled as the identity; `none` models a missing/unreadable file). -/
def ReadManifest (stored : Option Manifest) : Except String Manifest :=
  match stored with
  | some m => .ok m
  | none => .error "failed to read manifest"

/-! ### Local chunk store -/

/-- Latest write to `name` in a chronological write list (`os.WriteFile`
overwrites, so the last write wins). -/
def fsGet : List (String × Bytes) → String → Option Bytes
  | [], _ => none
  | w :: rest, name =>
    match fsGet rest name with
    | some b => some b
    | none => if w.1 = name then some w.2 else none

section Chunker

variable (g : GCM) (sha : Bytes → Bytes) (nonces : Nat → Bytes)

/-! ### Chunk engine (internal/chunker, reproduced in src/README.md) -/

/-- One iteration of `SplitFileWithChunkSize`'s read loop, as data: chunk id and
hash from the SHA-256 of the plaintext, the (possibly encrypted) payload written
to `outDir/<id>.chunk`, one `ChunkInfo` per chunk with a running index.
`none` models the loop never terminating: with `csize = 0` a zero-length
`os.File.Read` returns `(0, nil)` — never `io.EOF`, not even at end of file —
so the `n == 0 && err == io.EOF` break is never taken and the loop spins
forever on every input, the empty one included.  With `csize ≥ 1` a read at
end of data returns `(0, io.EOF)` and the loop breaks. -/
def splitLoop (ec : EncryptionConfig) (outDir : String) :
    Bytes → Nat → Nat → Option (List ChunkInfo × List (String × Bytes))
  | data, csize, index =>
    if h0 : csize = 0 then none
    else if h : data = [] then some ([], [])
    else
      let chunk := data.take csize
      let encryptedData := ec.Encrypt g (nonces index) chunk
      let hash := sha chunk
      let id := hexString (hash.take 8)
      let chunkPath := outDir ++ "/" ++ id ++ ".chunk"
      let ci : ChunkInfo :=
        { ID := id
          Hash := hexString hash
          Index := index
          Encrypted := ec.Enabled
          Size := (encryptedData.length : Int)
          CloudPaths := []
          Providers := []
          UploadTime := ""
          CloudIDs := none }
      match splitLoop ec outDir (data.drop csize) csize (index + 1) with
      | none => none
      | some (cis, ws) => some (ci :: cis, (chunkPath, encryptedData) :: ws)
  termination_by data _ _ => data.length
  decreasing_by
    simp only [List.length_drop]
    have : 0 < data.length := List.length_pos.mpr h
    omega

/-- `chunker.SplitFileWithChunkSize`, as the pair (manifest written to the
manifest path, chunk-file writes).  The function performs no chunk-size
validation: it opens the input first and goes straight into the read loop.
`none` models the two abnormal outcomes of a non-positive chunk size — neither
of which is a returned error: a panic in `make([]byte, chunkSize)` for negative
sizes, and the non-terminating read loop for `chunkSize = 0` (on every input,
since a zero-length read never reports `io.EOF`). -/
def SplitFileWithChunkSize (input : Bytes) (outDir : String) (origName : String)
    (ec : EncryptionConfig) (chunkSize : Int) (now : String) :
    Option (Manifest × List (String × Bytes)) :=
  if chunkSize < 0 then none
  else
    match splitLoop g sha nonces ec outDir input chunkSize.toNat 0 with
    | none => none
    | some (chunks, ws) => some (WriteManifest chunks origName ec.Enabled now, ws)

/-- Insertion step for the sort `AssembleFile` performs on `m.Chunks`. -/
def insertByIndex (c : ChunkInfo) : List ChunkInfo → List ChunkInfo
  | [] => [c]
  | d :: rest => if c.Index ≤ d.Index then c :: d :: rest else d :: insertByIndex c rest

/-- `sort.Slice(m.Chunks, Index <)`: any comparison sort by `Index`; on the
distinct indices produced by split the result is the unique sorted order. -/
def sortByIndex : List ChunkInfo → List ChunkInfo
  | [] => []
  | c :: rest => insertByIndex c (sortByIndex rest)

/-- The body of `AssembleFile`'s per-chunk loop: read `chunksPath/<ID>.chunk`,
decrypt, re-hash and compare against the recorded hash. -/
def chunkStep (ec : EncryptionConfig) (chunksPath : String)
    (store : List (String × Bytes)) (c : ChunkInfo) : Except String Bytes :=
  match fsGet store (chunksPath ++ "/" ++ c.ID ++ ".chunk") with
  | none => .error ("failed to read chunk " ++ c.ID)
  | some encryptedData =>
    match ec.Decrypt g encryptedData with
    | .error e => .error ("failed to decrypt chunk " ++ c.ID ++ ": " ++ e)
    | .ok data =>
      if c.Hash = hexString (sha data) then .ok data
      else .error ("hash mismatch on chunk id: " ++ c.ID)

/-- `AssembleFile`'s loop over the sorted chunks, concatenating plaintexts. -/
def assembleChunks (ec : EncryptionConfig) (chunksPath : String)
    (store : List (String × Bytes)) : List ChunkInfo → Except String Bytes
  | [] => .ok []
  | c :: rest =>
    match chunkStep g sha ec chunksPath store c with
    | .error e => .error e
    | .ok data =>
      match assembleChunks ec chunksPath store rest with
      | .error e => .error e
      | .ok out => .ok (data ++ out)

/-- `chunker.AssembleFile` after the manifest has been read: the encrypted-flag
checks run first, before any chunk file is opened (and before the output file
is created); then the chunks are sorted by index and concatenated. -/
def AssembleFile (m : Manifest) (chunksPath : String)
    (store : List (String × Bytes)) (ec : EncryptionConfig) : Except String Bytes :=
  if m.Encrypted && !ec.Enabled then
    .error "file was encrypted but no decryption key provided"
  else if !m.Encrypted && ec.Enabled then
    .error "file was not encrypted but decryption key provided"
  else
    assembleChunks g sha ec chunksPath store (sortByIndex m.Chunks)

end Chunker

/-! ### Configuration (internal/config/config.go) -/

/-- `config.GoogleDriveAccount`. -/
structure GoogleDriveAccount where
  Name : String
  CredsFile : String
  TokenFile : String
  FolderName : String
  Enabled : Bool
  Description : String
deriving DecidableEq

/-- `config.CloudConfig`. -/
structure CloudConfig where
  GoogleDriveAccounts : List GoogleDriveAccount
  Providers : List String
  ReplicationCount : Int
  LoadBalancing : String
deriving DecidableEq

/-- `config.ChunkConfig`. -/
structure ChunkConfig where
  ChunkSize : Int
deriving DecidableEq

/-- `config.Config`. -/
structure Config where
  ChunkConfig : ChunkConfig
  CloudConfig : CloudConfig
  Version : String
deriving DecidableEq

/-- `Config.GetEnabledGoogleDriveAccounts`. -/
def Config.GetEnabledGoogleDriveAccounts (c : Config) : List GoogleDriveAccount :=
  c.CloudConfig.GoogleDriveAccounts.filter (·.Enabled)

/-- The Google Drive account loop of `Config.Validate`: names non-empty and
distinct (`seen` carries the names already encountered), credential and token
paths non-empty. -/
def validateAccounts : List String → List GoogleDriveAccount → Except String Unit
  | _, [] => .ok ()
  | seen, a :: rest =>
    if a.Name = "" then .error "google drive account: name cannot be empty"
    else if a.Name ∈ seen then .error ("duplicate google drive account name: " ++ a.Name)
    else if a.CredsFile = "" then
      .error ("google drive account " ++ a.Name ++ ": credentials file cannot be empty")
    else if a.TokenFile = "" then
      .error ("google drive account " ++ a.Name ++ ": token file cannot be empty")
    else validateAccounts (a.Name :: seen) rest

/-- The provider loop of `Config.Validate`: Google Drive needs at least one
enabled account; every other known provider is unimplemented. -/
def validateProviders (c : Config) : List String → Except String Unit
  | [] => .ok ()
  | p :: rest =>
    if p = "gdrive" then
      if c.GetEnabledGoogleDriveAccounts.length = 0 then
        .error "google drive provider is enabled but no accounts are configured"
      else validateProviders c rest
    else if p = "dropbox" ∨ p = "onedrive" ∨ p = "mega" ∨ p = "ipfs" then
      .error ("provider " ++ p ++ " is not yet implemented")
    else .error ("unknown provider: " ++ p)

/-- `Config.Validate`: a pure check, performed by `LoadConfig` on the parsed
configuration before any split I/O happens.  The chunk-size check comes first. -/
def Config.Validate (c : Config) : Except String Unit :=
  if c.ChunkConfig.ChunkSize ≤ 0 then .error "chunk size must be positive"
  else if c.CloudConfig.ReplicationCount < 1 then .error "replication count must be at least 1"
  else if ¬(c.CloudConfig.LoadBalancing = "round_robin" ∨
            c.CloudConfig.LoadBalancing = "random" ∨
            c.CloudConfig.LoadBalancing = "size_based") then
    .error ("invalid load balancing strategy: " ++ c.CloudConfig.LoadBalancing)
  else
    match validateAccounts [] c.CloudConfig.GoogleDriveAccounts with
    | .error e => .error e
    | .ok _ => validateProviders c c.CloudConfig.Providers

/-! ### Distribution strategy (internal/cloudstorage/cloudstorage.go) -/

abbrev CloudProvider := String

def GoogleDrive : CloudProvider := "gdrive"
def Dropbox : CloudProvider := "dropbox"
def OneDrive : CloudProvider := "onedrive"
def MEGACloud : CloudProvider := "mega"
def IPFS : CloudProvider := "ipfs"
def Local : CloudProvider := "local"

/-- `cloudstorage.CloudDistributionStrategy`.  `ReplicationCount` is a `Nat`:
the strategy constructors set it to 1 and `Config.Validate` enforces `≥ 1`. -/
structure CloudDistributionStrategy where
  Providers : List CloudProvider
  ReplicationCount : Nat
  LoadBalancing : String
deriving DecidableEq

/-- `CloudDistributionStrategy.GetChunkDestination`.  An empty pool yields the
`Local` sentinel.  The source's `switch` on `LoadBalancing` runs the identical
round-robin loop in every branch (`"random"` falls through to the default), so
the embedded definition uses that loop directly: replica `i` of chunk `c` goes
to `Providers[(c + i) % len(Providers)]`. -/
def CloudDistributionStrategy.GetChunkDestination (cds : CloudDistributionStrategy)
    (chunkIndex : Nat) : List CloudProvider :=
  if cds.Providers = [] then [Local]
  else
    (List.range cds.ReplicationCount).map
      (fun i => cds.Providers.getD ((chunkIndex + i) % cds.Providers.length) Local)

/-! ### Download orchestrator (internal/cloudstorage/uploader.go) -/

/-- External per-account Google Drive API surface, as behaviour oracles. -/
structure GoogleDriveClient where
  DownloadFile : String → Except String Bytes
  FindFileByName : String → Except String String

/-- First value for a key in a `map[string]string` modelled as an assoc list. -/
def lookupMap (m : List (String × String)) (k : String) : Option String :=
  (m.find? (·.1 = k)).map (·.2)

/-- `filepath.Base` for the slash-separated cloud paths the program builds. -/
def baseName (s : String) : String := (s.splitOn "/").getLastD s

/-- The Google Drive arm of `DownloadChunks`' provider switch: pick the account
recorded in `CloudIDs["gdrive_account"]` if it is an initialized client, else
the first initialized client (`gds` lists the `googleDrives` map in its
iteration order); download by recorded file ID, falling back to find-by-name. -/
def gdriveDownloadChunk (gds : List (String × GoogleDriveClient)) (chunk : ChunkInfo)
    (cloudPath : String) : Except String Bytes :=
  match gds with
  | [] => .error "no Google Drive clients initialized"
  | g0 :: _ =>
    let targetClient : GoogleDriveClient :=
      match chunk.CloudIDs with
      | some ids =>
        match lookupMap ids (GoogleDrive ++ "_account") with
        | some acct =>
          match gds.find? (·.1 = acct) with
          | some c => c.2
          | none => g0.2
        | none => g0.2
      | none => g0.2
    let byName : Except String Bytes :=
      match targetClient.FindFileByName (baseName cloudPath) with
      | .ok fileID => targetClient.DownloadFile fileID
      | .error e => .error e
    match chunk.CloudIDs with
    | some ids =>
      match lookupMap ids GoogleDrive with
      | some fileID => targetClient.DownloadFile fileID
      | none => byName
    | none => byName

/-- The provider switch of `DownloadChunks`' inner loop. -/
def downloadChunkFrom (gds : List (String × GoogleDriveClient)) (chunk : ChunkInfo)
    (cloudPath provider : String) : Except String Bytes :=
  if provider = GoogleDrive then gdriveDownloadChunk gds chunk cloudPath
  else if provider = Dropbox then .error "dropbox not implemented yet"
  else if provider = OneDrive then .error "oneDrive not implemented yet"
  else if provider = MEGACloud then .error "mega not implemented yet"
  else if provider = IPFS then .error "ipfs not implemented yet"
  else .error ("unsupported cloud provider: " ++ provider)

/-- The inner loop of `DownloadChunks`: try each recorded
(cloud path, provider) pair in order, stopping at the first success; the `zip`
reflects the `i >= len(chunk.Providers)` break. -/
def tryDownload (gds : List (String × GoogleDriveClient)) (chunk : ChunkInfo) :
    List (String × String) → Option Bytes
  | [] => none
  | (cloudPath, provider) :: rest =>
    match downloadChunkFrom gds chunk cloudPath provider with
    | .ok b => some b
    | .error _ => tryDownload gds chunk rest

/-- The chunk loop of `CloudUploader.DownloadChunks`: a chunk with no recorded
cloud paths fails the operation; otherwise all recorded destinations are tried
in order and — success or not — the loop moves on, so a chunk whose every
destination fails is merely skipped (only a warning is printed).  The result
collects the files written into `downloadDir`. -/
def downloadChunksLoop (gds : List (String × GoogleDriveClient)) (downloadDir : String) :
    List ChunkInfo → Except String (List (String × Bytes))
  | [] => .ok []
  | chunk :: rest =>
    if chunk.CloudPaths = [] then
      .error ("chunk " ++ chunk.ID ++ " has no cloud paths")
    else
      match tryDownload gds chunk (chunk.CloudPaths.zip chunk.Providers) with
      | some b =>
        match downloadChunksLoop gds downloadDir rest with
        | .error e => .error e
        | .ok ws => .ok ((downloadDir ++ "/" ++ chunk.ID ++ ".chunk", b) :: ws)
      | none => downloadChunksLoop gds downloadDir rest

/-- `CloudUploader.DownloadChunks` after the manifest has been read. -/
def DownloadChunks (gds : List (String × GoogleDriveClient)) (m : Manifest)
    (downloadDir : String) : Except String (List (String × Bytes)) :=
  downloadChunksLoop gds downloadDir m.Chunks

/-! ## Concrete stand-ins for the external primitives

Executable instantiations used to evaluate the theorems at concrete inputs: an
injective digest function and a toy authenticated cipher with the interface of
AES-GCM.  They play the role the real SHA-256/AES-GCM contracts play in the
hypotheses of the theorems below. -/

/-- Injective encoding of a byte list into a natural number. -/
def encList : Bytes → Nat
  | [] => 0
  | a :: l => Nat.pair a (encList l) + 1

/-- Little-endian base-256 value of a digit list (inverse of `natBytes`). -/
def ofBytes : Bytes → Nat
  | [] => 0
  | d :: ds => d + 256 * ofBytes ds

/-- Little-endian base-256 digits of `n` (any fuel `≥ n` suffices). -/
def natBytes : Nat → Nat → Bytes
  | _, 0 => []
  | 0, _ + 1 => []
  | fuel + 1, n + 1 => ((n + 1) % 256) :: natBytes fuel ((n + 1) / 256)

/-- Injective digest with byte-valued output, standing in for SHA-256. -/
def toySha (b : Bytes) : Bytes := natBytes (encList b) (encList b)

/-- Authentication tag of the toy cipher: binds nonce and plaintext. -/
def toyTag (nonce pt : Bytes) : Nat := Nat.pair (encList nonce) (encList pt)

/-- Toy seal: plaintext followed by its tag. -/
def toySeal (_key nonce pt : Bytes) : Bytes := pt ++ [toyTag nonce pt]

/-- Toy open: succeeds exactly on honestly sealed inputs. -/
def toyOpen (_key nonce ct : Bytes) : Option Bytes :=
  if ct.getLast? = some (toyTag nonce ct.dropLast) then some ct.dropLast else none

def toyGCM : GCM := { nonceSize := 1, Seal := toySeal, Open := toyOpen }

def toyNonces : Nat → Bytes := fun _ => [0]

/-- A manifest chunk whose only recorded destination is the unimplemented
Dropbox provider, so every download attempt for it fails. -/
def c4Chunk : ChunkInfo :=
  { ID := "c0", Hash := "", Index := 0, Encrypted := false,
    CloudPaths := ["/Apps/DistributedChunks/c0.chunk"], Providers := ["dropbox"],
    Size := 1, UploadTime := "", CloudIDs := none }

def c4Manifest : Manifest :=
  { OriginalName := "f.bin", Chunks := [c4Chunk], Encrypted := false,
    CreatedTime := "2024-01-01T00:00:00Z", TotalSize := 1, ChunkCount := 1,
    DistributionMode := "cloud" }

/-- A manifest whose stored totals are consistent with its chunk list but whose
`CreatedTime` differs from the clock reading at re-serialization time. -/
def c5Chunk : ChunkInfo :=
  { ID := "aa", Hash := "bb", Index := 0, Encrypted := false,
    CloudPaths := [], Providers := [], Size := 3, UploadTime := "", CloudIDs := none }

def c5Manifest : Manifest :=
  { OriginalName := "f.bin", Chunks := [c5Chunk], Encrypted := false,
    CreatedTime := "2024-01-01T00:00:00Z", TotalSize := 3, ChunkCount := 1,
    DistributionMode := "local" }

/-- A configuration with a zero chunk size (all other fields well-formed). -/
def c3Config : Config :=
  { ChunkConfig := { ChunkSize := 0 }
    CloudConfig :=
      { GoogleDriveAccounts :=
          [{ Name := "primary", CredsFile := "credentials.json",
             TokenFile := "token.json", FolderName := "distributed-chunks",
             Enabled := true, Description := "" }]
        Providers := ["gdrive"], ReplicationCount := 1,
        LoadBalancing := "round_robin" }
    Version := "1.0" }

/-- Arbitrary chunk record used as a `getD` default in concrete statements. -/
def dummyChunk : ChunkInfo :=
  { ID := "", Hash := "", Index := 0, Encrypted := false,
    CloudPaths := [], Providers := [], Size := 0, UploadTime := "", CloudIDs := none }

/-- Two-provider round-robin strategy with replication 1. -/
def cds7 : CloudDistributionStrategy :=
  { Providers := ["gdrive", "dropbox"], ReplicationCount := 1,
    LoadBalancing := "round_robin" }

/-- Strategy with an empty provider pool. -/
def cds9a : CloudDistributionStrategy :=
  { Providers := [], ReplicationCount := 3, LoadBalancing := "round_robin" }

/-- Two-provider strategy with replication larger than the pool. -/
def cds9b : CloudDistributionStrategy :=
  { Providers := ["gdrive", "dropbox"], ReplicationCount := 5,
    LoadBalancing := "round_robin" }

/-! ## Proof layer: a closed form for the split loop -/

/-- The chunk decomposition of `data`: slices of `csize` bytes, the last one
possibly short. -/
def chunksOf (data : Bytes) (csize : Nat) : List Bytes :=
  if data = [] ∨ csize = 0 then []
  else data.take csize :: chunksOf (data.drop csize) csize
  termination_by data.length
  decreasing_by
    simp only [List.length_drop]
    have hd : data ≠ [] := by tauto
    have : 0 < data.length := List.length_pos.mpr hd
    omega

/-- The local file name split gives the chunk with plaintext `p`. -/
def chunkName (sha : Bytes → Bytes) (outDir : String) (p : Bytes) : String :=
  outDir ++ "/" ++ hexString ((sha p).take 8) ++ ".chunk"

section SplitShape

variable (g : GCM) (sha : Bytes → Bytes) (nonces : Nat → Bytes)

/-- The `ChunkInfo` split records for the chunk with plaintext `p` at `index`. -/
def mkChunkInfo (ec : EncryptionConfig) (index : Nat) (p : Bytes) : ChunkInfo :=
  { ID := hexString ((sha p).take 8)
    Hash := hexString (sha p)
    Index := index
    Encrypted := ec.Enabled
    Size := ((ec.Encrypt g (nonces index) p).length : Int)
    CloudPaths := []
    Providers := []
    UploadTime := ""
    CloudIDs := none }

/-- The manifest chunk records split produces, indices counting up from
`index`. -/
def chunkInfosFrom (ec : EncryptionConfig) (index : Nat) : List Bytes → List ChunkInfo
  | [] => []
  | p :: ps => mkChunkInfo g sha nonces ec index p :: chunkInfosFrom ec (index + 1) ps

/-- The chunk-file writes split performs, in chronological order. -/
def writesFrom (ec : EncryptionConfig) (outDir : String) (index : Nat) :
    List Bytes → List (String × Bytes)
  | [] => []
  | p :: ps =>
    (chunkName sha outDir p, ec.Encrypt g (nonces index) p) ::
      writesFrom ec outDir (index + 1) ps

theorem splitLoop_eq (ec : EncryptionConfig) (outDir : String) {csize : Nat}
    (hcs : csize ≠ 0) :
    ∀ data index, splitLoop g sha nonces ec outDir data csize index =
      some (chunkInfosFrom g sha nonces ec index (chunksOf data csize),
            writesFrom g sha nonces ec outDir index (chunksOf data csize)) := by
  have H : ∀ n data index, data.length ≤ n →
      splitLoop g sha nonces ec outDir data csize index =
        some (chunkInfosFrom g sha nonces ec index (chunksOf data csize),
              writesFrom g sha nonces ec outDir index (chunksOf data csize)) := by
    intro n
    induction n with
    | zero =>
      intro data index hlen
      have hd : data = [] := List.eq_nil_of_length_eq_zero (Nat.le_zero.mp hlen)
      subst hd
      rw [splitLoop, chunksOf]
      simp [hcs, chunkInfosFrom, writesFrom]
    | succ n ih =>
      intro data index hlen
      by_cases hd : data = []
      · subst hd
        rw [splitLoop, chunksOf]
        simp [hcs, chunkInfosFrom, writesFrom]
      · rw [splitLoop, chunksOf]
        have hdrop : (data.drop csize).length ≤ n := by
          have hpos : 0 < data.length := List.length_pos.mpr hd
          simp only [List.length_drop]
          omega
        rw [ih (data.drop csize) (index + 1) hdrop]
        simp [hd, hcs, chunkInfosFrom, writesFrom, mkChunkInfo, chunkName]
  intro data index
  exact H data.length data index le_rfl

theorem length_chunkInfosFrom (ec : EncryptionConfig) :
    ∀ (ps : List Bytes) (index : Nat),
      (chunkInfosFrom g sha nonces ec index ps).length = ps.length := by
  intro ps
  induction ps with
  | nil => intro index; rfl
  | cons p ps ih => intro index; simp [chunkInfosFrom, ih]

theorem map_index_chunkInfosFrom (ec : EncryptionConfig) :
    ∀ (ps : List Bytes) (index : Nat),
      (chunkInfosFrom g sha nonces ec index ps).map (·.Index) =
        List.range' index ps.length := by
  intro ps
  induction ps with
  | nil => intro index; rfl
  | cons p ps ih =>
    intro index
    simp [chunkInfosFrom, mkChunkInfo, ih, List.range'_succ]

/-- Every chunk of `chunksOf` concatenates back to the original data. -/
theorem flatten_chunksOf {csize : Nat} (hcs : csize ≠ 0) :
    ∀ data, (chunksOf data csize).flatten = data := by
  have H : ∀ n data, data.length ≤ n → (chunksOf data csize).flatten = data := by
    intro n
    induction n with
    | zero =>
      intro data hlen
      have hd : data = [] := List.eq_nil_of_length_eq_zero (Nat.le_zero.mp hlen)
      subst hd
      rw [chunksOf]; simp
    | succ n ih =>
      intro data hlen
      by_cases hd : data = []
      · subst hd; rw [chunksOf]; simp
      · rw [chunksOf]
        have hdrop : (data.drop csize).length ≤ n := by
          have hpos : 0 < data.length := List.length_pos.mpr hd
          simp only [List.length_drop]
          omega
        simp [hd, hcs, ih (data.drop csize) hdrop]
  intro data
  exact H data.length data le_rfl

end SplitShape

/-! ## Proof layer: the local chunk store -/

theorem fsGet_append_last (ws : List (String × Bytes)) (f name : String) (x : Bytes) :
    fsGet (ws ++ [(f, x)]) name = if f = name then some x else fsGet ws name := by
  induction ws with
  | nil =>
    by_cases hf : f = name <;> simp [fsGet, hf]
  | cons w ws ih =>
    simp only [List.cons_append, fsGet, List.append_eq]
    rw [ih]
    by_cases hf : f = name
    · simp [hf]
    · simp [hf]

section StoreShape

variable (g : GCM) (sha : Bytes → Bytes) (nonces : Nat → Bytes)

theorem fsGet_writesFrom_val (ec : EncryptionConfig) (outDir : String) :
    ∀ (ps : List Bytes) (index : Nat) (name : String) (v : Bytes),
      fsGet (writesFrom g sha nonces ec outDir index ps) name = some v →
      ∃ q j, q ∈ ps ∧ chunkName sha outDir q = name ∧ v = ec.Encrypt g (nonces j) q := by
  intro ps
  induction ps with
  | nil => intro index name v h; simp [writesFrom, fsGet] at h
  | cons p ps ih =>
    intro index name v h
    simp only [writesFrom, fsGet] at h
    rcases hrec : fsGet (writesFrom g sha nonces ec outDir (index + 1) ps) name with _ | b
    · rw [hrec] at h
      by_cases hn : chunkName sha outDir p = name
      · simp [hn] at h
        exact ⟨p, index, by simp, hn, h.symm⟩
      · simp [hn] at h
    · rw [hrec] at h
      obtain ⟨q, j, hq, hname, hv⟩ := ih (index + 1) name b hrec
      exact ⟨q, j, by simp [hq], hname, by simp_all⟩

theorem fsGet_writesFrom_mem (ec : EncryptionConfig) (outDir : String) :
    ∀ (ps : List Bytes) (index : Nat) (p : Bytes), p ∈ ps →
      ∃ v, fsGet (writesFrom g sha nonces ec outDir index ps) (chunkName sha outDir p) =
        some v := by
  intro ps
  induction ps with
  | nil => intro index p hp; simp at hp
  | cons p0 ps ih =>
    intro index p hp
    simp only [writesFrom, fsGet]
    rcases hrec : fsGet (writesFrom g sha nonces ec outDir (index + 1) ps)
        (chunkName sha outDir p) with _ | b
    · rcases List.mem_cons.mp hp with h0 | hmem
      · subst h0; simp
      · obtain ⟨v, hv⟩ := ih (index + 1) p hmem
        rw [hv] at hrec; cases hrec
    · exact ⟨b, rfl⟩

/-- When chunk file names do not collide outside equal plaintexts, looking up a
chunk's file in the split's writes returns an encryption of that chunk. -/
theorem fsGet_writesFrom_self (ec : EncryptionConfig) (outDir : String)
    (ps : List Bytes)
    (hid : ∀ a ∈ ps, ∀ b ∈ ps, chunkName sha outDir a = chunkName sha outDir b → a = b)
    (p : Bytes) (hp : p ∈ ps) :
    ∃ j, fsGet (writesFrom g sha nonces ec outDir 0 ps) (chunkName sha outDir p) =
      some (ec.Encrypt g (nonces j) p) := by
  obtain ⟨v, hv⟩ := fsGet_writesFrom_mem g sha nonces ec outDir ps 0 p hp
  obtain ⟨q, j, hq, hname, hval⟩ := fsGet_writesFrom_val g sha nonces ec outDir ps 0 _ v hv
  have : q = p := hid q hq p hp hname
  subst this
  exact ⟨j, by rw [hv, hval]⟩

/-- The write for the last chunk carrying a given file name is the one the file
ends up holding (later writes overwrite earlier ones). -/
theorem fsGet_writesFrom_last (ec : EncryptionConfig) (outDir : String) :
    ∀ (ps : List Bytes) (index j : Nat), j < ps.length →
      (∀ l, j < l → l < ps.length →
        chunkName sha outDir (ps.getD l []) ≠ chunkName sha outDir (ps.getD j [])) →
      fsGet (writesFrom g sha nonces ec outDir index ps)
          (chunkName sha outDir (ps.getD j [])) =
        some (ec.Encrypt g (nonces (index + j)) (ps.getD j [])) := by
  intro ps
  induction ps with
  | nil => intro index j hj; simp at hj
  | cons p ps ih =>
    intro index j hj hlast
    match j with
    | 0 =>
      simp only [List.getD_cons_zero] at hlast ⊢
      simp only [writesFrom, fsGet]
      rcases hrec : fsGet (writesFrom g sha nonces ec outDir (index + 1) ps)
          (chunkName sha outDir p) with _ | b
      · simp
      · obtain ⟨q, j', hq, hname, _⟩ :=
          fsGet_writesFrom_val g sha nonces ec outDir ps (index + 1) _ b hrec
        obtain ⟨⟨l, hl⟩, hget⟩ := List.get_of_mem hq
        refine absurd ?_ (hlast (l + 1) (Nat.succ_pos l) (by simpa using hl))
        simp only [List.getD_cons_succ]
        rw [List.get_eq_getElem] at hget
        rw [List.getD_eq_getElem _ _ hl, hget]
        exact hname
    | j' + 1 =>
      simp only [List.getD_cons_succ] at hlast ⊢
      simp only [writesFrom, fsGet]
      have hj' : j' < ps.length := by simpa using hj
      have hlast' : ∀ l, j' < l → l < ps.length →
          chunkName sha outDir (ps.getD l []) ≠ chunkName sha outDir (ps.getD j' []) := by
        intro l hl1 hl2
        have := hlast (l + 1) (by omega) (by simpa using hl2)
        simpa using this
      rw [ih (index + 1) j' hj' hlast']
      have : index + 1 + j' = index + (j' + 1) := by omega
      rw [this]

end StoreShape

/-! ## Proof layer: sorting already-sorted chunks -/

theorem insertByIndex_of_le (c : ChunkInfo) (l : List ChunkInfo)
    (h : ∀ d ∈ l, c.Index ≤ d.Index) : insertByIndex c l = c :: l := by
  cases l with
  | nil => rfl
  | cons d rest => simp [insertByIndex, h d (by simp)]

theorem sortByIndex_eq_self :
    ∀ l : List ChunkInfo, l.Pairwise (fun a b => a.Index ≤ b.Index) → sortByIndex l = l := by
  intro l
  induction l with
  | nil => intro _; rfl
  | cons c rest ih =>
    intro hp
    rw [List.pairwise_cons] at hp
    simp only [sortByIndex, ih hp.2]
    exact insertByIndex_of_le c rest hp.1

section SortedShape

variable (g : GCM) (sha : Bytes → Bytes) (nonces : Nat → Bytes)

theorem index_ge_chunkInfosFrom (ec : EncryptionConfig) :
    ∀ (ps : List Bytes) (index : Nat) (c : ChunkInfo),
      c ∈ chunkInfosFrom g sha nonces ec index ps → index ≤ c.Index := by
  intro ps
  induction ps with
  | nil => intro index c h; simp [chunkInfosFrom] at h
  | cons p ps ih =>
    intro index c h
    rcases List.mem_cons.mp h with h0 | hmem
    · subst h0; simp [mkChunkInfo]
    · exact le_trans (by omega) (ih (index + 1) c hmem)

theorem pairwise_chunkInfosFrom (ec : EncryptionConfig) :
    ∀ (ps : List Bytes) (index : Nat),
      (chunkInfosFrom g sha nonces ec index ps).Pairwise (fun a b => a.Index ≤ b.Index) := by
  intro ps
  induction ps with
  | nil => intro index; simp [chunkInfosFrom]
  | cons p ps ih =>
    intro index
    simp only [chunkInfosFrom, List.pairwise_cons]
    refine ⟨?_, ih (index + 1)⟩
    intro d hd
    have := index_ge_chunkInfosFrom g sha nonces ec ps (index + 1) d hd
    simp only [mkChunkInfo]
    omega

end SortedShape

/-! ## Proof layer: assembling -/

section AssembleLemmas

variable (g : GCM) (sha : Bytes → Bytes) (nonces : Nat → Bytes)

/-- Decrypting an honest encryption returns the plaintext, in both modes. -/
theorem Decrypt_Encrypt (ec : EncryptionConfig) (n p : Bytes)
    (hnl : n.length = g.nonceSize)
    (hopen : g.Open ec.Key n (g.Seal ec.Key n p) = some p) :
    ec.Decrypt g (ec.Encrypt g n p) = .ok p := by
  by_cases he : ec.Enabled
  · simp only [EncryptionConfig.Encrypt, EncryptionConfig.Decrypt, he, if_true]
    have hlen : ¬(n ++ g.Seal ec.Key n p).length < g.nonceSize := by
      simp only [List.length_append, hnl]
      omega
    rw [if_neg hlen]
    have htake : (n ++ g.Seal ec.Key n p).take g.nonceSize = n := by
      rw [← hnl]; exact List.take_left n _
    have hdrop : (n ++ g.Seal ec.Key n p).drop g.nonceSize = g.Seal ec.Key n p := by
      rw [← hnl]; exact List.drop_left n _
    rw [htake, hdrop, hopen]
  · simp [EncryptionConfig.Encrypt, EncryptionConfig.Decrypt, he]

/-- A chunk whose file holds an honest encryption of its plaintext passes the
read–decrypt–hash step. -/
theorem chunkStep_mk (ec : EncryptionConfig) (outDir : String)
    (store : List (String × Bytes)) (index : Nat) (p : Bytes)
    (hlook : ∃ j, fsGet store (chunkName sha outDir p) = some (ec.Encrypt g (nonces j) p))
    (hnl : ∀ i, (nonces i).length = g.nonceSize)
    (hopen : ∀ n q, g.Open ec.Key n (g.Seal ec.Key n q) = some q) :
    chunkStep g sha ec outDir store (mkChunkInfo g sha nonces ec index p) = .ok p := by
  obtain ⟨j, hj⟩ := hlook
  simp only [chunkStep, mkChunkInfo]
  rw [show outDir ++ "/" ++ hexString ((sha p).take 8) ++ ".chunk" =
    chunkName sha outDir p from rfl]
  rw [hj]
  have hd := Decrypt_Encrypt g ec (nonces j) p (hnl j) (hopen (nonces j) p)
  simp [hd]

theorem assembleChunks_ok (ec : EncryptionConfig) (outDir : String)
    (store : List (String × Bytes)) :
    ∀ (ps : List Bytes) (index : Nat),
      (∀ p ∈ ps, ∀ k,
        chunkStep g sha ec outDir store (mkChunkInfo g sha nonces ec k p) = .ok p) →
      assembleChunks g sha ec outDir store (chunkInfosFrom g sha nonces ec index ps) =
        .ok ps.flatten := by
  intro ps
  induction ps with
  | nil => intro index _; rfl
  | cons p ps ih =>
    intro index h
    simp only [chunkInfosFrom, assembleChunks]
    rw [h p (by simp) index, ih (index + 1) (fun q hq k => h q (by simp [hq]) k)]
    simp

theorem assembleChunks_error (ec : EncryptionConfig) (outDir : String)
    (store : List (String × Bytes)) :
    ∀ (cs : List ChunkInfo) (c : ChunkInfo), c ∈ cs →
      (∃ e, chunkStep g sha ec outDir store c = .error e) →
      ∃ e, assembleChunks g sha ec outDir store cs = .error e := by
  intro cs
  induction cs with
  | nil => intro c hc _; simp at hc
  | cons c0 cs ih =>
    intro c hc he
    simp only [assembleChunks]
    cases hstep : chunkStep g sha ec outDir store c0 with
    | error e0 => exact ⟨e0, rfl⟩
    | ok d =>
      rcases List.mem_cons.mp hc with rfl | hmem
      · obtain ⟨e, he⟩ := he
        rw [hstep] at he; cases he
      · obtain ⟨e', he'⟩ := ih c hmem he
        rw [he']
        exact ⟨e', rfl⟩

end AssembleLemmas

/-! ## Claims C1 and C6 -/

section ClaimsRoundTrip

variable (g : GCM) (sha : Bytes → Bytes) (nonces : Nat → Bytes)

/-- **C1.** For every input byte sequence and every chunk size ≥ 1, splitting
with `SplitFileWithChunkSize` and assembling the resulting chunk files with
`AssembleFile` via the written manifest reproduces the original input exactly,
both with encryption disabled and with it enabled under the same password.
Hypotheses: the GCM oracle decrypts its own encryptions (`hgcm`) with
proper-length nonces (`hnl`), and — the SHA-256 idealization — the 8-byte hash
prefixes that name the chunk files do not collide on distinct chunk plaintexts
(`hid`). -/
theorem split_assemble_roundtrip (input : Bytes) (outDir origName now : String)
    (pw : Bytes) (enabled : Bool) (chunkSize : Int)
    (m : Manifest) (ws : List (String × Bytes))
    (hcs : 1 ≤ chunkSize)
    (hnl : ∀ i, (nonces i).length = g.nonceSize)
    (hgcm : ∀ k n p, g.Open k n (g.Seal k n p) = some p)
    (hid : ∀ a ∈ chunksOf input chunkSize.toNat, ∀ b ∈ chunksOf input chunkSize.toNat,
      chunkName sha outDir a = chunkName sha outDir b → a = b)
    (hsplit : SplitFileWithChunkSize g sha nonces input outDir origName
      (CreateEncryptionConfig sha pw enabled) chunkSize now = some (m, ws)) :
    AssembleFile g sha m outDir ws (CreateEncryptionConfig sha pw enabled) = .ok input := by
  set ec := CreateEncryptionConfig sha pw enabled with hec
  have hcs0 : chunkSize.toNat ≠ 0 := by omega
  have hneg : ¬chunkSize < 0 := by omega
  rw [SplitFileWithChunkSize, if_neg hneg,
    splitLoop_eq g sha nonces ec outDir hcs0 input 0] at hsplit
  have hm : m = WriteManifest (chunkInfosFrom g sha nonces ec 0 (chunksOf input chunkSize.toNat))
      origName ec.Enabled now := by
    cases hsplit; rfl
  have hws : ws = writesFrom g sha nonces ec outDir 0 (chunksOf input chunkSize.toNat) := by
    cases hsplit; rfl
  have hflag : m.Encrypted = ec.Enabled := by
    rw [hm]; rfl
  rw [AssembleFile, hflag]
  have h1 : (ec.Enabled && !ec.Enabled) = false := by cases hb : ec.Enabled <;> rfl
  have h2 : (!ec.Enabled && ec.Enabled) = false := by cases hb : ec.Enabled <;> rfl
  rw [h1, h2]
  simp only [Bool.false_eq_true, if_false]
  have hchunks : m.Chunks = chunkInfosFrom g sha nonces ec 0 (chunksOf input chunkSize.toNat) := by
    rw [hm]; rfl
  rw [hchunks, sortByIndex_eq_self _ (pairwise_chunkInfosFrom g sha nonces ec _ 0)]
  rw [hws]
  rw [assembleChunks_ok g sha nonces ec outDir _ _ 0 ?_]
  · rw [flatten_chunksOf hcs0 input]
  · intro p hp k
    refine chunkStep_mk g sha nonces ec outDir _ k p ?_ hnl (fun n q => hgcm ec.Key n q)
    exact fsGet_writesFrom_self g sha nonces ec outDir _ hid p hp

/-- **C6.** For every input and every chunk size ≥ 1, the chunk records split
produces carry indices that are exactly `{0, …, N−1}`, in increasing order of
production, with no gaps and no duplicates. -/
theorem split_index_contiguous (input : Bytes) (outDir origName now : String)
    (ec : EncryptionConfig) (chunkSize : Int)
    (m : Manifest) (ws : List (String × Bytes))
    (hcs : 1 ≤ chunkSize)
    (hsplit : SplitFileWithChunkSize g sha nonces input outDir origName ec chunkSize now =
      some (m, ws)) :
    m.Chunks.map (·.Index) = List.range m.Chunks.length := by
  have hcs0 : chunkSize.toNat ≠ 0 := by omega
  have hneg : ¬chunkSize < 0 := by omega
  rw [SplitFileWithChunkSize, if_neg hneg,
    splitLoop_eq g sha nonces ec outDir hcs0 input 0] at hsplit
  have hchunks : m.Chunks = chunkInfosFrom g sha nonces ec 0 (chunksOf input chunkSize.toNat) := by
    cases hsplit; rfl
  rw [hchunks, map_index_chunkInfosFrom, length_chunkInfosFrom, List.range_eq_range']

end ClaimsRoundTrip

/-! ## Proof layer: single-byte corruption -/

theorem set_ne_of_get_ne (b : Bytes) (i v : Nat) (hi : i < b.length)
    (hv : v ≠ b.get ⟨i, hi⟩) : b.set i v ≠ b := by
  intro h
  apply hv
  have hi' : i < (b.set i v).length := by simpa using hi
  have h2 := congrArg (fun l : Bytes => l.getD i 0) h
  simp only at h2
  rw [List.getD_eq_getElem _ _ hi', List.getD_eq_getElem _ _ hi] at h2
  rw [List.get_eq_getElem]
  exact (List.getElem_set_self hi').symm.trans h2

theorem take_set_of_le (b : Bytes) (i v ns : Nat) (h : ns ≤ i) :
    (b.set i v).take ns = b.take ns := by
  apply List.ext_getElem
  · simp
  · intro k h1 h2
    have hk : k < ns := by simp at h1; omega
    have hkb : k < (b.set i v).length := by
      simp only [List.length_set]
      simp at h1
      omega
    simp only [List.getElem_take]
    exact List.getElem_set_ne (by omega) hkb

theorem drop_set_of_lt (b : Bytes) (i v ns : Nat) (h : i < ns) :
    (b.set i v).drop ns = b.drop ns := by
  apply List.ext_getElem
  · simp
  · intro k h1 h2
    have hkb : ns + k < (b.set i v).length := by
      simp only [List.length_set]
      simp at h1
      omega
    simp only [List.getElem_drop]
    exact List.getElem_set_ne (by omega) hkb

section FlipDetect

variable (g : GCM) (sha : Bytes → Bytes) (nonces : Nat → Bytes)

theorem mem_chunkInfosFrom (ec : EncryptionConfig) :
    ∀ (ps : List Bytes) (index : Nat) (p : Bytes), p ∈ ps →
      ∃ k, mkChunkInfo g sha nonces ec k p ∈ chunkInfosFrom g sha nonces ec index ps := by
  intro ps
  induction ps with
  | nil => intro index p hp; simp at hp
  | cons p0 ps ih =>
    intro index p hp
    rcases List.mem_cons.mp hp with h0 | hmem
    · subst h0; exact ⟨index, by simp [chunkInfosFrom]⟩
    · obtain ⟨k, hk⟩ := ih (index + 1) p hmem
      exact ⟨k, by simp [chunkInfosFrom, hk]⟩

/-- A chunk whose stored file content has one byte flipped fails the
read–decrypt–hash step: either GCM refuses to open it, or the plaintext's hash
no longer matches the recorded one. -/
theorem chunkStep_flip_error (ec : EncryptionConfig) (outDir : String)
    (store : List (String × Bytes)) (index j : Nat) (q b : Bytes) (i v : Nat)
    (hb : b = ec.Encrypt g (nonces j) q)
    (hi : i < b.length) (hv : v ≠ b.get ⟨i, hi⟩)
    (hstore : fsGet store (chunkName sha outDir q) = some (b.set i v))
    (hnl : ∀ i, (nonces i).length = g.nonceSize)
    (HhashInj : ∀ x y, hexString (sha x) = hexString (sha y) → x = y)
    (Hhonest : ∀ k n ct pt, n.length = g.nonceSize → g.Open k n ct = some pt →
      ct = g.Seal k n pt)
    (Hsealinj : ∀ k n1 n2 p1 p2, g.Seal k n1 p1 = g.Seal k n2 p2 → n1 = n2) :
    ∃ e, chunkStep g sha ec outDir store (mkChunkInfo g sha nonces ec index q) =
      .error e := by
  have hne : b.set i v ≠ b := set_ne_of_get_ne b i v hi hv
  simp only [chunkStep, mkChunkInfo]
  rw [show outDir ++ "/" ++ hexString ((sha q).take 8) ++ ".chunk" =
    chunkName sha outDir q from rfl]
  rw [hstore]
  by_cases he : ec.Enabled
  · -- encryption enabled: b = nonce ++ Seal(key, nonce, q)
    have hbdef : b = nonces j ++ g.Seal ec.Key (nonces j) q := by
      rw [hb]; simp [EncryptionConfig.Encrypt, he]
    have hnsl : (nonces j).length = g.nonceSize := hnl j
    have hlen : ¬(b.set i v).length < g.nonceSize := by
      rw [List.length_set, hbdef]
      simp only [List.length_append, hnsl]
      omega
    have hbtake : b.take g.nonceSize = nonces j := by
      rw [hbdef, ← hnsl]; exact List.take_left _ _
    have hbdrop : b.drop g.nonceSize = g.Seal ec.Key (nonces j) q := by
      rw [hbdef, ← hnsl]; exact List.drop_left _ _
    simp only [EncryptionConfig.Decrypt, he, if_true, if_neg hlen]
    cases hO : g.Open ec.Key ((b.set i v).take g.nonceSize) ((b.set i v).drop g.nonceSize) with
    | none => exact ⟨_, rfl⟩
    | some pt =>
      have htlen : ((b.set i v).take g.nonceSize).length = g.nonceSize := by
        rw [List.length_take, List.length_set]
        have : g.nonceSize ≤ b.length := by
          rw [hbdef]; simp only [List.length_append, hnsl]; omega
        omega
      have hct := Hhonest ec.Key _ _ pt htlen hO
      by_cases hh : hexString (sha q) = hexString (sha pt)
      · exfalso
        have hq : q = pt := HhashInj q pt hh
        subst hq
        by_cases hins : i < g.nonceSize
        · -- flip inside the nonce
          have hdropeq : (b.set i v).drop g.nonceSize = b.drop g.nonceSize :=
            drop_set_of_lt b i v _ hins
          rw [hdropeq, hbdrop] at hct
          have hn := Hsealinj ec.Key _ _ _ _ hct
          apply hne
          calc b.set i v = (b.set i v).take g.nonceSize ++ (b.set i v).drop g.nonceSize :=
                (List.take_append_drop _ _).symm
            _ = nonces j ++ g.Seal ec.Key (nonces j) q := by
                rw [hdropeq, hbdrop, ← hn]
            _ = b := hbdef.symm
        · -- flip inside the sealed payload
          have htakeeq : (b.set i v).take g.nonceSize = b.take g.nonceSize :=
            take_set_of_le b i v _ (by omega)
          rw [htakeeq, hbtake] at hct
          apply hne
          calc b.set i v = (b.set i v).take g.nonceSize ++ (b.set i v).drop g.nonceSize :=
                (List.take_append_drop _ _).symm
            _ = nonces j ++ g.Seal ec.Key (nonces j) q := by
                rw [htakeeq, hbtake, hct]
            _ = b := hbdef.symm
      · exact ⟨"hash mismatch on chunk id: " ++ hexString ((sha q).take 8), by simp [hh]⟩
  · -- encryption disabled: the stored bytes are the plaintext itself
    have hbq : b = q := by
      rw [hb]; simp [EncryptionConfig.Encrypt, he]
    simp only [EncryptionConfig.Decrypt, Bool.not_eq_true] at he ⊢
    rw [he]
    simp only [Bool.false_eq_true, if_false]
    by_cases hh : hexString (sha q) = hexString (sha (b.set i v))
    · exfalso
      have hEq := HhashInj q (b.set i v) hh
      rw [hbq] at hEq hne
      exact hne hEq.symm
    · exact ⟨"hash mismatch on chunk id: " ++ hexString ((sha q).take 8), by simp [hh]⟩

/-- **C2.** For every file split produces (with or without encryption),
flipping any single byte of any stored chunk file makes `AssembleFile` return
an error — a decryption/authentication error or a hash-mismatch error — and
never succeed.  Crypto idealizations as hypotheses: the full SHA-256 hex digest
is collision-free (`HhashInj`), GCM only opens honestly sealed ciphertexts
(`Hhonest`), and sealing binds the nonce (`Hsealinj`). -/
theorem flip_chunk_detected (input : Bytes) (outDir origName now : String)
    (pw : Bytes) (enabled : Bool) (chunkSize : Int)
    (m : Manifest) (ws : List (String × Bytes)) (f : String) (b : Bytes) (i v : Nat)
    (hcs : 1 ≤ chunkSize)
    (hnl : ∀ i, (nonces i).length = g.nonceSize)
    (HhashInj : ∀ x y, hexString (sha x) = hexString (sha y) → x = y)
    (Hhonest : ∀ k n ct pt, n.length = g.nonceSize → g.Open k n ct = some pt →
      ct = g.Seal k n pt)
    (Hsealinj : ∀ k n1 n2 p1 p2, g.Seal k n1 p1 = g.Seal k n2 p2 → n1 = n2)
    (hsplit : SplitFileWithChunkSize g sha nonces input outDir origName
      (CreateEncryptionConfig sha pw enabled) chunkSize now = some (m, ws))
    (hf : fsGet ws f = some b)
    (hi : i < b.length) (hv : v ≠ b.get ⟨i, hi⟩) :
    ∃ e, AssembleFile g sha m outDir (ws ++ [(f, b.set i v)])
      (CreateEncryptionConfig sha pw enabled) = .error e := by
  set ec := CreateEncryptionConfig sha pw enabled with hec
  have hcs0 : chunkSize.toNat ≠ 0 := by omega
  have hneg : ¬chunkSize < 0 := by omega
  rw [SplitFileWithChunkSize, if_neg hneg,
    splitLoop_eq g sha nonces ec outDir hcs0 input 0] at hsplit
  have hm : m = WriteManifest
      (chunkInfosFrom g sha nonces ec 0 (chunksOf input chunkSize.toNat))
      origName ec.Enabled now := by
    cases hsplit; rfl
  have hws : ws = writesFrom g sha nonces ec outDir 0 (chunksOf input chunkSize.toNat) := by
    cases hsplit; rfl
  obtain ⟨q, j, hq, hname, hbval⟩ :=
    fsGet_writesFrom_val g sha nonces ec outDir _ 0 f b (hws ▸ hf)
  obtain ⟨k, hk⟩ := mem_chunkInfosFrom g sha nonces ec _ 0 q hq
  have hflag : m.Encrypted = ec.Enabled := by rw [hm]; rfl
  rw [AssembleFile, hflag]
  have h1 : (ec.Enabled && !ec.Enabled) = false := by cases hb2 : ec.Enabled <;> rfl
  have h2 : (!ec.Enabled && ec.Enabled) = false := by cases hb2 : ec.Enabled <;> rfl
  rw [h1, h2]
  simp only [Bool.false_eq_true, if_false]
  have hchunks : m.Chunks =
      chunkInfosFrom g sha nonces ec 0 (chunksOf input chunkSize.toNat) := by
    rw [hm]; rfl
  rw [hchunks, sortByIndex_eq_self _ (pairwise_chunkInfosFrom g sha nonces ec _ 0)]
  refine assembleChunks_error g sha ec outDir _ _ (mkChunkInfo g sha nonces ec k q) hk ?_
  refine chunkStep_flip_error g sha nonces ec outDir _ k j q b i v hbval hi hv ?_
    hnl HhashInj Hhonest Hsealinj
  rw [fsGet_append_last, hname, if_pos rfl]

end FlipDetect

/-! ## Claims C3 and C8 -/

/-- **C3 (amended).** `Config.Validate` rejects a non-positive configured chunk
size as a configuration error; the check is a pure computation on the parsed
configuration, performed before any split I/O.  (`SplitFileWithChunkSize`
itself performs no such validation — see the counterexample theorem.) -/
theorem validate_rejects_nonpositive_chunk_size (c : Config)
    (h : c.ChunkConfig.ChunkSize ≤ 0) :
    Config.Validate c = .error "chunk size must be positive" := by
  rw [Config.Validate, if_pos h]

/-- **C3 (counterexample).** `SplitFileWithChunkSize` never rejects a
non-positive chunk size as a configuration error: with chunk size `0` it opens
the input and enters the read loop, which never terminates (a zero-length
`Read` returns `(0, nil)`, never `io.EOF`), and with a negative chunk size it
panics in `make([]byte, chunkSize)` after opening the input.  Both abnormal
endings — `none`, no normal return, no error value, no manifest — are shown at
a concrete input, against the claimed rejection before any I/O. -/
theorem split_nonpositive_chunk_size_never_rejects :
    SplitFileWithChunkSize toyGCM toySha toyNonces [1, 2, 3] "chunks" "in.bin"
      (CreateEncryptionConfig toySha [] false) 0 "t0" = none
    ∧ SplitFileWithChunkSize toyGCM toySha toyNonces [1, 2, 3] "chunks" "in.bin"
      (CreateEncryptionConfig toySha [] false) (-1) "t0" = none := by
  constructor
  · rw [SplitFileWithChunkSize, if_neg (by omega), splitLoop]
    simp
  · rw [SplitFileWithChunkSize, if_pos (by omega)]

/-- **C8.** If the manifest's `encrypted` flag disagrees with the caller's
decrypt intent, `AssembleFile` returns the corresponding error regardless of
the chunk store's contents — the check runs before any chunk file is opened or
read and before the output file is created, so no output is written. -/
theorem assemble_flag_mismatch_fails_fast (g : GCM) (sha : Bytes → Bytes)
    (m : Manifest) (chunksPath : String) (store : List (String × Bytes))
    (ec : EncryptionConfig) (h : m.Encrypted ≠ ec.Enabled) :
    AssembleFile g sha m chunksPath store ec =
      .error (if m.Encrypted then "file was encrypted but no decryption key provided"
              else "file was not encrypted but decryption key provided") := by
  rw [AssembleFile]
  cases hm : m.Encrypted <;> cases he : ec.Enabled <;> simp_all

/-! ## Claim C5 -/

/-- **C5 (amended).** Re-serializing a manifest from its own chunks, name,
encrypted flag and mode recomputes `total_size` and `chunk_count` from the
chunk list (never taking the stored values), and stamps `created_time` with the
serialization clock; reading it back therefore yields a manifest equal to `m`
in all fields exactly when `m`'s stored totals already match the recomputed
ones and its `created_time` equals the serialization timestamp. -/
theorem manifest_reserialize (m : Manifest) (now : String) :
    (WriteManifestWithMode m.Chunks m.OriginalName m.Encrypted m.DistributionMode
        now).TotalSize = (m.Chunks.map (·.Size)).sum
    ∧ (WriteManifestWithMode m.Chunks m.OriginalName m.Encrypted m.DistributionMode
        now).ChunkCount = (m.Chunks.length : Int)
    ∧ (m.TotalSize = (m.Chunks.map (·.Size)).sum →
        m.ChunkCount = (m.Chunks.length : Int) →
        m.CreatedTime = now →
        ReadManifest (some (WriteManifestWithMode m.Chunks m.OriginalName m.Encrypted
          m.DistributionMode now)) = .ok m) := by
  refine ⟨rfl, rfl, ?_⟩
  intro h1 h2 h3
  cases m
  simp_all [ReadManifest, WriteManifestWithMode]

/-- **C5 (counterexample).** Even for a manifest whose stored totals are
consistent, the serialize–deserialize round trip is not the identity:
`WriteManifestWithMode` stamps a fresh `created_time`, so reading back a
manifest re-serialized at a later clock reading differs from the original. -/
theorem manifest_reserialize_created_time_cex :
    ReadManifest (some (WriteManifestWithMode c5Manifest.Chunks c5Manifest.OriginalName
      c5Manifest.Encrypted c5Manifest.DistributionMode "2025-06-01T00:00:00Z")) ≠
      .ok c5Manifest := by
  simp [ReadManifest, WriteManifestWithMode, c5Manifest]

/-! ## Claim C4 -/

theorem downloadChunksLoop_ok (gds : List (String × GoogleDriveClient)) (dir : String) :
    ∀ cs : List ChunkInfo, (∀ c ∈ cs, c.CloudPaths ≠ []) →
      ∃ ws, downloadChunksLoop gds dir cs = .ok ws := by
  intro cs
  induction cs with
  | nil => intro _; exact ⟨[], rfl⟩
  | cons c cs ih =>
    intro h
    obtain ⟨ws, hws⟩ := ih (fun d hd => h d (by simp [hd]))
    simp only [downloadChunksLoop, if_neg (h c (by simp))]
    cases htry : tryDownload gds c (c.CloudPaths.zip c.Providers) with
    | none => exact ⟨ws, hws⟩
    | some b => exact ⟨_, by rw [hws]⟩

/-- **C4 (amended).** For every manifest, `DownloadChunks` tries each chunk's
recorded (path, provider) pairs in their recorded order and stops at the first
success; a chunk with no recorded cloud paths fails the whole operation; but a
chunk whose every recorded destination fails is merely skipped with a logged
warning — whenever every chunk has at least one recorded destination,
`DownloadChunks` returns success, never a `ChunkUnavailable`-style error. -/
theorem downloadChunks_skips_failed_destinations (gds : List (String × GoogleDriveClient))
    (m : Manifest) (dir : String) (h : ∀ c ∈ m.Chunks, c.CloudPaths ≠ []) :
    (∃ ws, DownloadChunks gds m dir = .ok ws)
    ∧ ∀ (chunk : ChunkInfo) (pre : List (String × String)) (cp pr : String) (b : Bytes)
        (post : List (String × String)),
        (∀ q ∈ pre, ∀ x, downloadChunkFrom gds chunk q.1 q.2 ≠ .ok x) →
        downloadChunkFrom gds chunk cp pr = .ok b →
        tryDownload gds chunk (pre ++ (cp, pr) :: post) = some b := by
  constructor
  · exact downloadChunksLoop_ok gds dir m.Chunks h
  · intro chunk pre
    induction pre with
    | nil =>
      intro cp pr b post _ hok
      simp only [List.nil_append, tryDownload, hok]
    | cons q pre ih =>
      intro cp pr b post hpre hok
      simp only [List.cons_append, tryDownload]
      cases hq : downloadChunkFrom gds chunk q.1 q.2 with
      | ok x => exact absurd hq (hpre q (by simp) x)
      | error e => exact ih cp pr b post (fun r hr x => hpre r (by simp [hr]) x) hok

/-- **C4 (counterexample).** A chunk with one recorded destination whose every
download attempt fails (Dropbox is unimplemented) does not make
`DownloadChunks` fail: the chunk is skipped and the operation reports
success. -/
theorem downloadChunks_all_destinations_fail_ok :
    DownloadChunks [] c4Manifest "chunks" = .ok [] := by rfl

/-! ## Claims C7 and C9 -/

theorem flatMap_singleton_eq_map (l : List Nat) (f : Nat → CloudProvider) :
    l.flatMap (fun k => [f k]) = l.map f := by
  induction l with
  | nil => rfl
  | cons a l ih => simp [ih]

theorem range_map_mod_rotate (pool : List CloudProvider) (c : Nat) (hne : pool ≠ []) :
    (List.range pool.length).map (fun k => pool.getD ((c + k) % pool.length) Local) =
      pool.rotate c := by
  have hpos : 0 < pool.length := List.length_pos.mpr hne
  apply List.ext_getElem
  · simp
  · intro k h1 h2
    have hk : k < pool.length := by simpa using h1
    rw [List.getElem_map, List.getElem_range,
      List.getD_eq_getElem _ _ (Nat.mod_lt _ hpos), List.getElem_rotate]
    congr 1
    rw [Nat.add_comm c k]

/-- **C7.** With a non-empty pool under round-robin, the `i`-th replica
destination for chunk `c` is `pool[(c + i) mod P]`; consequently with
replication count 1, any `P` consecutive chunk indices produce a permutation of
the pool — and, when the pool has no duplicate entries, `P` distinct
destinations, each used exactly once. -/
theorem round_robin_fairness (cds : CloudDistributionStrategy) (c : Nat)
    (hlb : cds.LoadBalancing = "round_robin") (hne : cds.Providers ≠ []) :
    (∀ i, i < cds.ReplicationCount →
      (cds.GetChunkDestination c).get? i =
        some (cds.Providers.getD ((c + i) % cds.Providers.length) Local))
    ∧ (cds.ReplicationCount = 1 →
        ((List.range cds.Providers.length).flatMap
            (fun k => cds.GetChunkDestination (c + k))).Perm cds.Providers
        ∧ (cds.Providers.Nodup → ∀ d ∈ cds.Providers,
            ((List.range cds.Providers.length).flatMap
              (fun k => cds.GetChunkDestination (c + k))).count d = 1)) := by
  constructor
  · intro i hi
    rw [CloudDistributionStrategy.GetChunkDestination, if_neg hne]
    rw [List.get?_eq_getElem?, List.getElem?_map, List.getElem?_range hi]
    rfl
  · intro hR
    have hflat : (List.range cds.Providers.length).flatMap
        (fun k => cds.GetChunkDestination (c + k)) =
        (List.range cds.Providers.length).map
          (fun k => cds.Providers.getD ((c + k) % cds.Providers.length) Local) := by
      rw [← flatMap_singleton_eq_map]
      congr 1
      funext k
      rw [CloudDistributionStrategy.GetChunkDestination, if_neg hne, hR]
      rfl
    have hperm : ((List.range cds.Providers.length).flatMap
        (fun k => cds.GetChunkDestination (c + k))).Perm cds.Providers := by
      rw [hflat, range_map_mod_rotate cds.Providers c hne]
      exact List.rotate_perm cds.Providers c
    refine ⟨hperm, ?_⟩
    intro hnd d hd
    rw [hperm.count_eq]
    exact List.count_eq_one_of_mem hnd hd

/-- **C9.** `GetChunkDestination` never fails: an empty provider pool yields
the single `Local` sentinel for every chunk index, and a non-empty pool yields
exactly `ReplicationCount` destinations — with repetitions once
`ReplicationCount` exceeds the pool size. -/
theorem getChunkDestination_spec (cds : CloudDistributionStrategy) (c : Nat) :
    (cds.Providers = [] → cds.GetChunkDestination c = [Local])
    ∧ (cds.Providers ≠ [] →
        (cds.GetChunkDestination c).length = cds.ReplicationCount)
    ∧ (cds.Providers ≠ [] → cds.Providers.length < cds.ReplicationCount →
        (cds.GetChunkDestination c).getD 0 Local =
          (cds.GetChunkDestination c).getD cds.Providers.length Local) := by
  refine ⟨?_, ?_, ?_⟩
  · intro h
    rw [CloudDistributionStrategy.GetChunkDestination, if_pos h]
  · intro h
    rw [CloudDistributionStrategy.GetChunkDestination, if_neg h]
    simp
  · intro h hlt
    have hpos : 0 < cds.Providers.length := List.length_pos.mpr h
    rw [CloudDistributionStrategy.GetChunkDestination, if_neg h]
    rw [List.getD_eq_getElem _ _ (by simpa using by omega : (0 : Nat) <
      ((List.range cds.ReplicationCount).map
        (fun i => cds.Providers.getD ((c + i) % cds.Providers.length) Local)).length),
      List.getD_eq_getElem _ _ (by simpa using hlt)]
    rw [List.getElem_map, List.getElem_map, List.getElem_range, List.getElem_range]
    rw [Nat.add_zero, Nat.add_mod_right]

/-! ## Claim C10 -/

section DuplicateChunks

variable (g : GCM) (sha : Bytes → Bytes) (nonces : Nat → Bytes)

theorem getD_chunkInfosFrom (ec : EncryptionConfig) (d : ChunkInfo) :
    ∀ (ps : List Bytes) (index i : Nat), i < ps.length →
      (chunkInfosFrom g sha nonces ec index ps).getD i d =
        mkChunkInfo g sha nonces ec (index + i) (ps.getD i []) := by
  intro ps
  induction ps with
  | nil => intro index i hi; simp at hi
  | cons p ps ih =>
    intro index i hi
    match i with
    | 0 => simp [chunkInfosFrom]
    | i' + 1 =>
      simp only [chunkInfosFrom, List.getD_cons_succ]
      rw [ih (index + 1) i' (by simpa using hi)]
      congr 1
      omega

/-- **C10.** When two chunk positions of a split input carry equal plaintext
bytes, both receive the same id — the first 8 bytes of the SHA-256 plaintext
digest in hex — and hence the same local chunk file name; the later write
overwrites the earlier file, which ends up holding the (possibly encrypted)
payload of the later position; and the manifest still records one `ChunkInfo`
per position.  (`hlast` says position `j` is the last one mapped to that file
name.) -/
theorem duplicate_chunks_share_file (input : Bytes) (outDir origName now : String)
    (ec : EncryptionConfig) (chunkSize : Int) (m : Manifest)
    (ws : List (String × Bytes)) (i j : Nat) (d : ChunkInfo)
    (hcs : 1 ≤ chunkSize)
    (hsplit : SplitFileWithChunkSize g sha nonces input outDir origName ec chunkSize now =
      some (m, ws))
    (hj : j < (chunksOf input chunkSize.toNat).length)
    (hij : i < j)
    (heq : (chunksOf input chunkSize.toNat).getD i [] =
      (chunksOf input chunkSize.toNat).getD j [])
    (hlast : ∀ l, j < l → l < (chunksOf input chunkSize.toNat).length →
      chunkName sha outDir ((chunksOf input chunkSize.toNat).getD l []) ≠
        chunkName sha outDir ((chunksOf input chunkSize.toNat).getD j [])) :
    m.Chunks.length = (chunksOf input chunkSize.toNat).length
    ∧ (m.Chunks.getD i d).ID =
        hexString ((sha ((chunksOf input chunkSize.toNat).getD i [])).take 8)
    ∧ (m.Chunks.getD i d).ID = (m.Chunks.getD j d).ID
    ∧ fsGet ws (chunkName sha outDir ((chunksOf input chunkSize.toNat).getD i [])) =
        some (ec.Encrypt g (nonces j) ((chunksOf input chunkSize.toNat).getD j [])) := by
  have hcs0 : chunkSize.toNat ≠ 0 := by omega
  have hneg : ¬chunkSize < 0 := by omega
  rw [SplitFileWithChunkSize, if_neg hneg,
    splitLoop_eq g sha nonces ec outDir hcs0 input 0] at hsplit
  have hchunks : m.Chunks =
      chunkInfosFrom g sha nonces ec 0 (chunksOf input chunkSize.toNat) := by
    cases hsplit; rfl
  have hws : ws = writesFrom g sha nonces ec outDir 0 (chunksOf input chunkSize.toNat) := by
    cases hsplit; rfl
  have hi : i < (chunksOf input chunkSize.toNat).length := by omega
  refine ⟨?_, ?_, ?_, ?_⟩
  · rw [hchunks, length_chunkInfosFrom]
  · rw [hchunks, getD_chunkInfosFrom g sha nonces ec d _ 0 i hi]
    rfl
  · rw [hchunks, getD_chunkInfosFrom g sha nonces ec d _ 0 i hi,
      getD_chunkInfosFrom g sha nonces ec d _ 0 j hj]
    simp only [mkChunkInfo]
    rw [heq]
  · have hnames : chunkName sha outDir ((chunksOf input chunkSize.toNat).getD i []) =
        chunkName sha outDir ((chunksOf input chunkSize.toNat).getD j []) := by
      rw [heq]
    rw [hnames, hws]
    have := fsGet_writesFrom_last g sha nonces ec outDir
      (chunksOf input chunkSize.toNat) 0 j hj hlast
    simpa using this

end DuplicateChunks

/-! ## Properties of the concrete stand-in primitives -/

theorem encList_injective : ∀ x y : Bytes, encList x = encList y → x = y := by
  intro x
  induction x with
  | nil =>
    intro y h
    cases y with
    | nil => rfl
    | cons b m => simp [encList] at h
  | cons a l ih =>
    intro y h
    cases y with
    | nil => simp [encList] at h
    | cons b m =>
      simp only [encList] at h
      have h' : Nat.pair a (encList l) = Nat.pair b (encList m) := by omega
      have h2 := congrArg Nat.unpair h'
      rw [Nat.unpair_pair, Nat.unpair_pair] at h2
      rw [Prod.mk.injEq] at h2
      rw [h2.1, ih m h2.2]

theorem ofBytes_natBytes : ∀ fuel n, n ≤ fuel → ofBytes (natBytes fuel n) = n := by
  intro fuel
  induction fuel with
  | zero =>
    intro n h
    have : n = 0 := by omega
    subst this
    rfl
  | succ f ih =>
    intro n h
    match n with
    | 0 => rfl
    | n + 1 =>
      simp only [natBytes, ofBytes]
      rw [ih ((n + 1) / 256) (by
        have := Nat.div_lt_self (Nat.succ_pos n) (by norm_num : 1 < 256)
        omega)]
      exact Nat.mod_add_div (n + 1) 256

theorem toySha_injective (x y : Bytes) (h : toySha x = toySha y) : x = y := by
  have hx := ofBytes_natBytes (encList x) (encList x) le_rfl
  have hy := ofBytes_natBytes (encList y) (encList y) le_rfl
  refine encList_injective x y ?_
  rw [← hx, ← hy]
  exact congrArg ofBytes h

theorem natBytes_entries_lt : ∀ fuel n, ∀ d ∈ natBytes fuel n, d < 256 := by
  intro fuel
  induction fuel with
  | zero => intro n d hd; cases n <;> simp [natBytes] at hd
  | succ f ih =>
    intro n d hd
    match n with
    | 0 => simp [natBytes] at hd
    | n + 1 =>
      simp only [natBytes, List.mem_cons] at hd
      rcases hd with h | h
      · rw [h]; exact Nat.mod_lt _ (by norm_num)
      · exact ih _ d h

theorem hexChar_inj : ∀ a, a < 16 → ∀ b, b < 16 → hexChar a = hexChar b → a = b := by
  decide

theorem byteHex_inj (a b : Nat) (ha : a < 256) (hb : b < 256)
    (h1 : hexChar (a / 16) = hexChar (b / 16)) (h2 : hexChar (a % 16) = hexChar (b % 16)) :
    a = b := by
  have d1 : a / 16 = b / 16 :=
    hexChar_inj _ (by omega) _ (by omega) h1
  have d2 : a % 16 = b % 16 :=
    hexChar_inj _ (by omega) _ (by omega) h2
  omega

theorem hexChars_inj : ∀ x y : Bytes, (∀ a ∈ x, a < 256) → (∀ a ∈ y, a < 256) →
    (x.map byteHex).flatten = (y.map byteHex).flatten → x = y := by
  intro x
  induction x with
  | nil =>
    intro y hx hy h
    cases y with
    | nil => rfl
    | cons b m => simp [byteHex] at h
  | cons a l ih =>
    intro y hx hy h
    cases y with
    | nil => simp [byteHex] at h
    | cons b m =>
      simp only [List.map_cons, List.flatten_cons, byteHex, List.cons_append,
        List.cons.injEq] at h
      obtain ⟨h1, h2, h3⟩ := h
      have hab : a = b :=
        byteHex_inj a b (hx a (by simp)) (hy b (by simp)) h1 h2
      rw [hab, ih m (fun d hd => hx d (by simp [hd])) (fun d hd => hy d (by simp [hd])) h3]

theorem hexString_inj (x y : Bytes) (hx : ∀ a ∈ x, a < 256) (hy : ∀ a ∈ y, a < 256)
    (h : hexString x = hexString y) : x = y := by
  refine hexChars_inj x y hx hy ?_
  have h' : String.mk ((x.map byteHex).flatten) = String.mk ((y.map byteHex).flatten) := h
  injection h' with hd

theorem toySha_hex_inj (x y : Bytes) (h : hexString (toySha x) = hexString (toySha y)) :
    x = y :=
  toySha_injective x y
    (hexString_inj _ _ (natBytes_entries_lt _ _) (natBytes_entries_lt _ _) h)

theorem toyOpen_toySeal (k n p : Bytes) : toyOpen k n (toySeal k n p) = some p := by
  simp [toyOpen, toySeal, List.getLast?_concat, List.dropLast_concat]

theorem toyOpen_honest (k n ct pt : Bytes) (h : toyOpen k n ct = some pt) :
    ct = toySeal k n pt := by
  simp only [toyOpen] at h
  by_cases hc : ct.getLast? = some (toyTag n ct.dropLast)
  · rw [if_pos hc] at h
    have hpt : pt = ct.dropLast := (Option.some.inj h).symm
    have hne : ct ≠ [] := by
      intro h0; rw [h0] at hc; simp at hc
    have hlast := List.getLast?_eq_getLast ct hne
    rw [hlast] at hc
    have htag : ct.getLast hne = toyTag n ct.dropLast := Option.some.inj hc
    subst hpt
    conv_lhs => rw [← List.dropLast_append_getLast hne]
    rw [htag]
    rfl
  · rw [if_neg hc] at h; cases h

theorem toySeal_nonce_inj (k n1 n2 p1 p2 : Bytes)
    (h : toySeal k n1 p1 = toySeal k n2 p2) : n1 = n2 := by
  simp only [toySeal] at h
  have hlast := congrArg List.getLast? h
  rw [List.getLast?_concat, List.getLast?_concat] at hlast
  have htag : toyTag n1 p1 = toyTag n2 p2 := Option.some.inj hlast
  have h2 := congrArg Nat.unpair htag
  simp only [toyTag, Nat.unpair_pair, Prod.mk.injEq] at h2
  exact encList_injective n1 n2 h2.1

/-! ## Witnesses: the theorems evaluated at concrete inputs -/

theorem split_assemble_roundtrip_witness :
    AssembleFile toyGCM toySha
      { OriginalName := "f"
        Chunks := [⟨"33", "33", 0, false, [], [], 2, "", none⟩,
                   ⟨"0d", "0d", 1, false, [], [], 1, "", none⟩]
        Encrypted := false, CreatedTime := "t", TotalSize := 3, ChunkCount := 2,
        DistributionMode := "local" }
      "chunks" [("chunks/33.chunk", [1, 2]), ("chunks/0d.chunk", [3])]
      (CreateEncryptionConfig toySha [7] false) = .ok [1, 2, 3] := by
  refine split_assemble_roundtrip toyGCM toySha toyNonces [1, 2, 3] "chunks" "f" "t"
    [7] false 2 _ _ (by omega) (fun i => rfl) (fun k n p => toyOpen_toySeal k n p) ?_ ?_
  · rw [show chunksOf [1, 2, 3] ((2 : Int)).toNat = [[1, 2], [3]] from by simp [chunksOf]]
    decide
  · rw [SplitFileWithChunkSize, if_neg (by omega),
      splitLoop_eq toyGCM toySha toyNonces _ "chunks" (by decide) [1, 2, 3] 0,
      show chunksOf [1, 2, 3] ((2 : Int)).toNat = [[1, 2], [3]] from by simp [chunksOf]]
    decide

theorem flip_chunk_detected_witness :
    ∃ e, AssembleFile toyGCM toySha
      { OriginalName := "f"
        Chunks := [⟨"33", "33", 0, false, [], [], 2, "", none⟩,
                   ⟨"0d", "0d", 1, false, [], [], 1, "", none⟩]
        Encrypted := false, CreatedTime := "t", TotalSize := 3, ChunkCount := 2,
        DistributionMode := "local" }
      "chunks"
      ([("chunks/33.chunk", [1, 2]), ("chunks/0d.chunk", [3])] ++
        [("chunks/33.chunk", List.set [1, 2] 0 9)])
      (CreateEncryptionConfig toySha [7] false) = .error e := by
  refine flip_chunk_detected toyGCM toySha toyNonces [1, 2, 3] "chunks" "f" "t"
    [7] false 2 _ _ "chunks/33.chunk" [1, 2] 0 9 (by omega) (fun i => rfl)
    toySha_hex_inj (fun k n ct pt _ h => toyOpen_honest k n ct pt h)
    (fun k n1 n2 p1 p2 h => toySeal_nonce_inj k n1 n2 p1 p2 h) ?_
    (by decide) (by decide) (by decide)
  · rw [SplitFileWithChunkSize, if_neg (by omega),
      splitLoop_eq toyGCM toySha toyNonces _ "chunks" (by decide) [1, 2, 3] 0,
      show chunksOf [1, 2, 3] ((2 : Int)).toNat = [[1, 2], [3]] from by simp [chunksOf]]
    decide

theorem validate_rejects_nonpositive_chunk_size_witness :
    Config.Validate c3Config = .error "chunk size must be positive" :=
  validate_rejects_nonpositive_chunk_size c3Config (by decide)

theorem downloadChunks_skips_failed_destinations_witness :
    (∃ ws, DownloadChunks [] c4Manifest "dl" = .ok ws)
    ∧ ∀ (chunk : ChunkInfo) (pre : List (String × String)) (cp pr : String) (b : Bytes)
        (post : List (String × String)),
        (∀ q ∈ pre, ∀ x, downloadChunkFrom [] chunk q.1 q.2 ≠ .ok x) →
        downloadChunkFrom [] chunk cp pr = .ok b →
        tryDownload [] chunk (pre ++ (cp, pr) :: post) = some b :=
  downloadChunks_skips_failed_destinations [] c4Manifest "dl" (by decide)

theorem manifest_reserialize_witness :
    ReadManifest (some (WriteManifestWithMode c5Manifest.Chunks c5Manifest.OriginalName
      c5Manifest.Encrypted c5Manifest.DistributionMode "2024-01-01T00:00:00Z")) =
      .ok c5Manifest :=
  (manifest_reserialize c5Manifest "2024-01-01T00:00:00Z").2.2 (by decide) (by decide) rfl

theorem split_index_contiguous_witness :
    ([⟨"1f", "1f", 0, false, [], [], 1, "", none⟩] : List ChunkInfo).map (·.Index) =
      List.range 1 := by
  refine split_index_contiguous toyGCM toySha toyNonces [5] "chunks" "f" "t"
    (CreateEncryptionConfig toySha [] false) 1
    { OriginalName := "f"
      Chunks := [⟨"1f", "1f", 0, false, [], [], 1, "", none⟩]
      Encrypted := false, CreatedTime := "t", TotalSize := 1, ChunkCount := 1,
      DistributionMode := "local" }
    [("chunks/1f.chunk", [5])] (by omega) ?_
  rw [SplitFileWithChunkSize, if_neg (by omega),
    splitLoop_eq toyGCM toySha toyNonces _ "chunks" (by decide) [5] 0,
    show chunksOf [5] ((1 : Int)).toNat = [[5]] from by simp [chunksOf]]
  decide

theorem round_robin_fairness_witness :
    (cds7.GetChunkDestination 5).get? 0 = some "dropbox"
    ∧ ((List.range 2).flatMap (fun k => cds7.GetChunkDestination (5 + k))).Perm
        cds7.Providers := by
  constructor
  · rw [(round_robin_fairness cds7 5 rfl (by decide)).1 0 (by decide)]
    decide
  · exact ((round_robin_fairness cds7 5 rfl (by decide)).2 rfl).1

theorem assemble_flag_mismatch_fails_fast_witness :
    AssembleFile toyGCM toySha c5Manifest "chunks" []
      (CreateEncryptionConfig toySha [1] true) =
      .error "file was not encrypted but decryption key provided" := by
  have h := assemble_flag_mismatch_fails_fast toyGCM toySha c5Manifest "chunks" []
    (CreateEncryptionConfig toySha [1] true) (by decide)
  simpa using h

theorem getChunkDestination_spec_witness :
    cds9a.GetChunkDestination 4 = [Local]
    ∧ (cds9b.GetChunkDestination 7).length = cds9b.ReplicationCount :=
  ⟨(getChunkDestination_spec cds9a 4).1 rfl,
   (getChunkDestination_spec cds9b 7).2.1 (by decide)⟩

theorem duplicate_chunks_share_file_witness :
    ({ OriginalName := "f"
       Chunks := [⟨"d914", "d914", 0, true, [], [], 4, "", none⟩,
                  ⟨"d914", "d914", 1, true, [], [], 4, "", none⟩]
       Encrypted := true, CreatedTime := "t", TotalSize := 8, ChunkCount := 2,
       DistributionMode := "local" } : Manifest).Chunks.length =
        (chunksOf [7, 8, 7, 8] ((2 : Int)).toNat).length
    ∧ (({ OriginalName := "f"
          Chunks := [⟨"d914", "d914", 0, true, [], [], 4, "", none⟩,
                     ⟨"d914", "d914", 1, true, [], [], 4, "", none⟩]
          Encrypted := true, CreatedTime := "t", TotalSize := 8, ChunkCount := 2,
          DistributionMode := "local" } : Manifest).Chunks.getD 0 dummyChunk).ID =
        hexString ((toySha ((chunksOf [7, 8, 7, 8] ((2 : Int)).toNat).getD 0 [])).take 8)
    ∧ (({ OriginalName := "f"
          Chunks := [⟨"d914", "d914", 0, true, [], [], 4, "", none⟩,
                     ⟨"d914", "d914", 1, true, [], [], 4, "", none⟩]
          Encrypted := true, CreatedTime := "t", TotalSize := 8, ChunkCount := 2,
          DistributionMode := "local" } : Manifest).Chunks.getD 0 dummyChunk).ID =
        (({ OriginalName := "f"
            Chunks := [⟨"d914", "d914", 0, true, [], [], 4, "", none⟩,
                       ⟨"d914", "d914", 1, true, [], [], 4, "", none⟩]
            Encrypted := true, CreatedTime := "t", TotalSize := 8, ChunkCount := 2,
            DistributionMode := "local" } : Manifest).Chunks.getD 1 dummyChunk).ID
    ∧ fsGet [("chunks/d914.chunk", [0, 7, 8, 28483570]),
             ("chunks/d914.chunk", [0, 7, 8, 28483570])]
        (chunkName toySha "chunks" ((chunksOf [7, 8, 7, 8] ((2 : Int)).toNat).getD 0 [])) =
        some ((CreateEncryptionConfig toySha [7] true).Encrypt toyGCM (toyNonces 1)
          ((chunksOf [7, 8, 7, 8] ((2 : Int)).toNat).getD 1 [])) := by
  have hch : chunksOf [7, 8, 7, 8] ((2 : Int)).toNat = [[7, 8], [7, 8]] := by
    simp [chunksOf]
  refine duplicate_chunks_share_file toyGCM toySha toyNonces [7, 8, 7, 8] "chunks" "f" "t"
    (CreateEncryptionConfig toySha [7] true) 2 _ _ 0 1 dummyChunk (by omega) ?_ ?_
    (by decide) ?_ ?_
  · rw [SplitFileWithChunkSize, if_neg (by omega),
      splitLoop_eq toyGCM toySha toyNonces _ "chunks" (by decide) [7, 8, 7, 8] 0, hch]
    decide
  · rw [hch]; decide
  · rw [hch]; decide
  · intro l h1 h2
    rw [hch] at h2
    simp at h2
    omega

end ChunkStore
